import Mathlib

/-!
# Verification of the codexflow template core

A shallow embedding, in Lean 4, of the core of the codexflow repository:
the duration parser (`src/codexflow/template_logic.py`), the template
normalizer (`normalize_template_data`), the variable renderer
(`src/codexflow/prompting.py`), the repeat scheduler
(`src/codexflow/cmds/run.py`) and the template path resolver
(`src/codexflow/template_paths.py`), together with proofs of the spec's
testable properties about them.

Modelling conventions:
* Python strings are `List Char` (or `String` for record fields); Python's
  `str.strip()` / `str.lower()` are `pyStrip` / `pyLower` over the ASCII
  whitespace class used by both `str.strip` and the regex class `\s`.
* Python floats are modelled as exact rationals `ℚ`.
* `SystemExit` failures are `Except` errors, one constructor per `raise`
  site, named after the spec's error vocabulary.
* Regular-expression scanning (`re.finditer`, `re.sub`) is embedded as
  deterministic left-to-right scanners; the patterns involved
  (`DURATION_CHUNKS_PATTERN`, `VAR_PATTERN`) have character classes that
  make greedy matching deterministic, and the equivalence with the
  declarative reading of each pattern is proved, not assumed.
-/

/-! ## Python string primitives -/

/-- The ASCII whitespace class of Python's `str.strip()` and of the regex
class `\s`: space, tab, newline, carriage return, vertical tab, form feed. -/
def isPyWs (c : Char) : Bool :=
  c = ' ' || c = '\t' || c = '\n' || c = '\r' || c = '\x0b' || c = '\x0c'

/-- Remove leading whitespace (the left half of Python's `str.strip()`). -/
def pyStripLeft (l : List Char) : List Char := l.dropWhile isPyWs

/-- Remove trailing whitespace (the right half of Python's `str.strip()`). -/
def pyStripRight (l : List Char) : List Char := (l.reverse.dropWhile isPyWs).reverse

/-- Python's `str.strip()` with no argument: drop whitespace at both ends. -/
def pyStrip (l : List Char) : List Char := pyStripRight (pyStripLeft l)

/-- Python's `str.lower()` (ASCII fragment, which is all the code relies on). -/
def pyLower (l : List Char) : List Char := l.map Char.toLower

/-- `str.strip()` on `String` values. -/
def pyStripS (s : String) : String := String.mk (pyStrip s.toList)

/-- `str.lower()` on `String` values. -/
def pyLowerS (s : String) : String := String.mk (pyLower s.toList)

theorem dropWhile_dropWhile (p : Char → Bool) (l : List Char) :
    (l.dropWhile p).dropWhile p = l.dropWhile p := by
  induction l with
  | nil => rfl
  | cons c t ih =>
    by_cases h : p c = true
    · simp [List.dropWhile_cons, h, ih]
    · simp [List.dropWhile_cons, h]

theorem pyStripLeft_pyStripRight_of_left_fixed (l : List Char)
    (h : pyStripLeft l = l) : pyStripLeft (pyStripRight l) = (l.reverse.dropWhile isPyWs).reverse := by
  unfold pyStripRight
  cases hl : (l.reverse.dropWhile isPyWs).reverse with
  | nil => simp [pyStripLeft, hl]
  | cons c t =>
    have hcl : c :: t = (l.reverse.dropWhile isPyWs).reverse := hl.symm
    -- `c :: t` is a prefix of `l`: `l = (c :: t) ++ (l.reverse.takeWhile isPyWs).reverse`
    have hsplit : l = (c :: t) ++ (l.reverse.takeWhile isPyWs).reverse := by
      have := List.takeWhile_append_dropWhile (p := isPyWs) (l := l.reverse)
      calc l = l.reverse.reverse := (List.reverse_reverse l).symm
        _ = (l.reverse.takeWhile isPyWs ++ l.reverse.dropWhile isPyWs).reverse := by rw [this]
        _ = (l.reverse.dropWhile isPyWs).reverse ++ (l.reverse.takeWhile isPyWs).reverse := by
              rw [List.reverse_append]
        _ = (c :: t) ++ (l.reverse.takeWhile isPyWs).reverse := by rw [← hl]
    -- since `pyStripLeft l = l` and `l` starts with `c`, `isPyWs c = false`
    have hc : isPyWs c = false := by
      by_contra hc
      have hc' : isPyWs c = true := by
        cases h' : isPyWs c with
        | false => exact absurd h' hc
        | true => rfl
      have : l.dropWhile isPyWs = l := h
      rw [hsplit] at this
      simp only [List.cons_append, List.dropWhile_cons, hc', if_true] at this
      have hlen := congrArg List.length this
      have hle : ((t ++ (l.reverse.takeWhile isPyWs).reverse).dropWhile isPyWs).length ≤
          (t ++ (l.reverse.takeWhile isPyWs).reverse).length :=
        (List.dropWhile_suffix (p := isPyWs)).sublist.length_le
      simp only [List.length_append, List.length_cons] at hlen hle
      omega
    simp [pyStripLeft, hl, List.dropWhile_cons, hc]

theorem pyStrip_idem (l : List Char) : pyStrip (pyStrip l) = pyStrip l := by
  unfold pyStrip
  have h1 : pyStripLeft (pyStripLeft l) = pyStripLeft l := dropWhile_dropWhile isPyWs l
  have h2 : pyStripLeft (pyStripRight (pyStripLeft l)) = pyStripRight (pyStripLeft l) := by
    have := pyStripLeft_pyStripRight_of_left_fixed (pyStripLeft l) h1
    simpa [pyStripRight] using this
  rw [h2]
  -- now `pyStripRight` is idempotent
  unfold pyStripRight
  rw [List.reverse_reverse, dropWhile_dropWhile]

theorem pyStripS_idem (s : String) : pyStripS (pyStripS s) = pyStripS s := by
  unfold pyStripS
  rw [show (String.mk (pyStrip s.toList)).toList = pyStrip s.toList from rfl, pyStrip_idem]

/-! ## Duration parsing

Embeds `parse_duration_seconds` (`template_logic.py`, lines 23–38) and
`DURATION_CHUNKS_PATTERN = re.compile(r"(\d+(?:\.\d+)?)([smhd])")`
(`app_constants.py`, line 26).  The source runs `finditer` over the
stripped, lowercased input and rejects unless the concatenation of all
matches equals the whole input; because the pattern's character classes
(digits, the dot, the unit letters) are pairwise disjoint where it
matters, that is equivalent to the input being parsed, left to right,
as a gapless sequence of `<number><unit>` chunks, which is how
`parseChunksF` proceeds.  `IsChunks` is the declarative reading of the
same pattern and the equivalence of the two is proved below. -/

inductive DurationError where
  | emptyField
  | invalidDuration
  | nonPositive
deriving DecidableEq, Repr

/-- The unit letters of `DURATION_CHUNKS_PATTERN`, in source order. -/
def unitChars : List Char := ['s', 'm', 'h', 'd']

/-- The `unit_seconds` table of `parse_duration_seconds`. -/
def unitSeconds (u : Char) : ℚ :=
  if u = 's' then 1 else if u = 'm' then 60 else if u = 'h' then 3600
  else if u = 'd' then 86400 else 0

/-- Value of a run of decimal digits. -/
def digitsVal (l : List Char) : ℕ :=
  l.foldl (fun a c => 10 * a + (c.toNat - 48)) 0

/-- Exact value of the decimal numeral `ip [. fp]` — what Python's
`float()` denotes on the text matched by group 1 of the pattern
(floats modelled as exact rationals). -/
def numeralVal (ip fp : List Char) : ℚ :=
  (digitsVal ip : ℚ) + (digitsVal fp : ℚ) / (10 : ℚ) ^ fp.length

/-- One chunk of `DURATION_CHUNKS_PATTERN` matched at the head of the
input: greedy digit run, optional greedy `.digits`, then a unit letter.
Returns the chunk's value, its unit and the unconsumed rest. -/
def parseChunk (cs : List Char) : Option ((ℚ × Char) × List Char) :=
  let ip := cs.takeWhile Char.isDigit
  let r1 := cs.dropWhile Char.isDigit
  if ip.isEmpty then none else
  match r1 with
  | [] => none
  | c :: r2 =>
    if c = '.' then
      let fp := r2.takeWhile Char.isDigit
      let r3 := r2.dropWhile Char.isDigit
      if fp.isEmpty then none else
      match r3 with
      | [] => none
      | u :: r4 => if u ∈ unitChars then some ((numeralVal ip fp, u), r4) else none
    else if c ∈ unitChars then some ((numeralVal ip [], c), r2) else none

/-- Gapless chunk sequence, fuelled for structural recursion; fuel is
always instantiated with the input length, which suffices because each
chunk consumes at least one character. -/
def parseChunksF : ℕ → List Char → Option (List (ℚ × Char))
  | _, [] => some []
  | 0, _ :: _ => none
  | Nat.succ fuel, c :: cs =>
    match parseChunk (c :: cs) with
    | none => none
    | some (ch, rest) => (parseChunksF fuel rest).map (fun l => ch :: l)

/-- `finditer(DURATION_CHUNKS_PATTERN, value)` together with the check
that the matches concatenate back to `value`: all chunks, or rejection. -/
def durationChunksParse (cs : List Char) : Option (List (ℚ × Char)) :=
  parseChunksF cs.length cs

/-- The summation loop of `parse_duration_seconds`. -/
def chunksTotal (l : List (ℚ × Char)) : ℚ :=
  (l.map (fun p => p.1 * unitSeconds p.2)).sum

/-- `parse_duration_seconds(raw, field_name)` (`template_logic.py` 23–38):
strip and lowercase, reject empty, reject unless the chunk matches cover
the whole string, sum the converted chunks, reject non-positive totals. -/
def parse_duration_seconds (raw : List Char) : Except DurationError ℚ :=
  if (pyLower (pyStrip raw)).isEmpty then .error .emptyField
  else match durationChunksParse (pyLower (pyStrip raw)) with
    | none => .error .invalidDuration
    | some chunks =>
      if chunksTotal chunks ≤ 0 then .error .nonPositive else .ok (chunksTotal chunks)

/-- A non-empty all-digit string. -/
def DigitStr (l : List Char) : Prop := l ≠ [] ∧ ∀ c ∈ l, c.isDigit = true

/-- Declarative reading of "the string is exactly a concatenation of
`<number><unit>` chunks with units in `{s,m,h,d}`, whose converted
total (s=1, m=60, h=3600, d=86400, chunks summed) is `t`". -/
inductive IsChunks : List Char → ℚ → Prop where
  | nil : IsChunks [] 0
  | intChunk {i : List Char} {u : Char} {rest : List Char} {t : ℚ} :
      DigitStr i → u ∈ unitChars → IsChunks rest t →
      IsChunks (i ++ u :: rest) (numeralVal i [] * unitSeconds u + t)
  | fracChunk {i f : List Char} {u : Char} {rest : List Char} {t : ℚ} :
      DigitStr i → DigitStr f → u ∈ unitChars → IsChunks rest t →
      IsChunks (i ++ '.' :: (f ++ u :: rest)) (numeralVal i f * unitSeconds u + t)

theorem unit_not_digit {u : Char} (hu : u ∈ unitChars) : u.isDigit = false := by
  fin_cases hu <;> decide

theorem unit_ne_dot {u : Char} (hu : u ∈ unitChars) : u ≠ '.' := by
  fin_cases hu <;> decide

theorem takeWhile_append_not (p : Char → Bool) (l : List Char) (c : Char) (rest : List Char)
    (hl : ∀ x ∈ l, p x = true) (hc : p c = false) :
    (l ++ c :: rest).takeWhile p = l ∧ (l ++ c :: rest).dropWhile p = c :: rest := by
  induction l with
  | nil => simp [List.takeWhile_cons, List.dropWhile_cons, hc]
  | cons a t ih =>
    have ha : p a = true := hl a (by simp)
    have ht : ∀ x ∈ t, p x = true := fun x hx => hl x (by simp [hx])
    obtain ⟨h1, h2⟩ := ih ht
    simp [List.takeWhile_cons, List.dropWhile_cons, ha, h1, h2]

theorem parseChunk_int {i : List Char} {u : Char} (rest : List Char)
    (hi : DigitStr i) (hu : u ∈ unitChars) :
    parseChunk (i ++ u :: rest) = some ((numeralVal i [], u), rest) := by
  obtain ⟨hne, hdig⟩ := hi
  obtain ⟨ht, hd⟩ := takeWhile_append_not Char.isDigit i u rest hdig (unit_not_digit hu)
  have hipe : (i ++ u :: rest).takeWhile Char.isDigit ≠ [] := by rw [ht]; exact hne
  simp only [parseChunk, ht, hd, List.isEmpty_iff, hne, if_false, if_neg hne]
  simp [unit_ne_dot hu, hu]

theorem parseChunk_frac {i f : List Char} {u : Char} (rest : List Char)
    (hi : DigitStr i) (hf : DigitStr f) (hu : u ∈ unitChars) :
    parseChunk (i ++ '.' :: (f ++ u :: rest)) = some ((numeralVal i f, u), rest) := by
  obtain ⟨hne, hdig⟩ := hi
  obtain ⟨hnef, hdigf⟩ := hf
  obtain ⟨ht, hd⟩ :=
    takeWhile_append_not Char.isDigit i '.' (f ++ u :: rest) hdig (by decide)
  obtain ⟨ht2, hd2⟩ := takeWhile_append_not Char.isDigit f u rest hdigf (unit_not_digit hu)
  simp only [parseChunk, ht, hd, List.isEmpty_iff, if_neg hne, if_pos rfl, ht2, hd2,
    if_neg hnef, hu, if_pos]

theorem parseChunk_sound {cs : List Char} {q : ℚ} {u : Char} {rest : List Char}
    (h : parseChunk cs = some ((q, u), rest)) :
    u ∈ unitChars ∧
      ((∃ i, DigitStr i ∧ cs = i ++ u :: rest ∧ q = numeralVal i []) ∨
       (∃ i f, DigitStr i ∧ DigitStr f ∧ cs = i ++ '.' :: (f ++ u :: rest) ∧ q = numeralVal i f)) := by
  have hcs := (List.takeWhile_append_dropWhile (p := Char.isDigit) (l := cs)).symm
  have hipd : ∀ x ∈ cs.takeWhile Char.isDigit, x.isDigit = true :=
    fun x hx => List.mem_takeWhile_imp hx
  simp only [parseChunk] at h
  split at h
  · exact absurd h (by simp)
  case isFalse hipe =>
  have hipne : cs.takeWhile Char.isDigit ≠ [] := by
    intro he; rw [List.isEmpty_iff] at hipe; exact hipe he
  split at h
  · exact absurd h (by simp)
  case h_2 c r2 hr1 =>
  by_cases hcdot : c = '.'
  · subst hcdot
    rw [if_pos rfl] at h
    have hr2d : ∀ x ∈ r2.takeWhile Char.isDigit, x.isDigit = true :=
      fun x hx => List.mem_takeWhile_imp hx
    have hr2 := (List.takeWhile_append_dropWhile (p := Char.isDigit) (l := r2)).symm
    split at h
    · exact absurd h (by simp)
    next hfpe =>
    have hfpne : r2.takeWhile Char.isDigit ≠ [] := by
      intro he; rw [List.isEmpty_iff] at hfpe; exact hfpe he
    split at h
    · exact absurd h (by simp)
    next u' r4 hr3 =>
    by_cases hu' : u' ∈ unitChars
    swap
    · rw [if_neg hu'] at h; exact absurd h (by simp)
    rw [if_pos hu'] at h
    obtain ⟨⟨hq, hu⟩, hrest⟩ : (numeralVal (cs.takeWhile Char.isDigit) (r2.takeWhile Char.isDigit) = q ∧ u' = u) ∧ r4 = rest := by
      have := h
      simp only [Option.some.injEq, Prod.mk.injEq] at this
      exact ⟨⟨this.1.1, this.1.2⟩, this.2⟩
    subst hu hrest
    refine ⟨hu', Or.inr ⟨cs.takeWhile Char.isDigit, r2.takeWhile Char.isDigit,
      ⟨hipne, hipd⟩, ⟨hfpne, hr2d⟩, ?_, hq.symm⟩⟩
    rw [← hr3, ← hr2, ← hr1]; exact hcs
  · rw [if_neg hcdot] at h
    by_cases hcu : c ∈ unitChars
    swap
    · rw [if_neg hcu] at h; exact absurd h (by simp)
    rw [if_pos hcu] at h
    obtain ⟨⟨hq, hu⟩, hrest⟩ : (numeralVal (cs.takeWhile Char.isDigit) [] = q ∧ c = u) ∧ r2 = rest := by
      have := h
      simp only [Option.some.injEq, Prod.mk.injEq] at this
      exact ⟨⟨this.1.1, this.1.2⟩, this.2⟩
    subst hu hrest
    exact ⟨hcu, Or.inl ⟨cs.takeWhile Char.isDigit, ⟨hipne, hipd⟩, by rw [← hr1]; exact hcs, hq.symm⟩⟩

theorem parseChunk_length {cs : List Char} {ch : ℚ × Char} {rest : List Char}
    (h : parseChunk cs = some (ch, rest)) : rest.length + 2 ≤ cs.length := by
  obtain ⟨q, u⟩ := ch
  obtain ⟨-, hdec⟩ := parseChunk_sound h
  rcases hdec with ⟨i, ⟨hne, -⟩, hcs, -⟩ | ⟨i, f, ⟨hne, -⟩, ⟨hnef, -⟩, hcs, -⟩
  · have : i.length ≥ 1 := List.length_pos.mpr hne
    rw [hcs]; simp only [List.length_append, List.length_cons]; omega
  · have : i.length ≥ 1 := List.length_pos.mpr hne
    have : f.length ≥ 1 := List.length_pos.mpr hnef
    rw [hcs]; simp only [List.length_append, List.length_cons]; omega

theorem chunksTotal_cons (p : ℚ × Char) (l : List (ℚ × Char)) :
    chunksTotal (p :: l) = p.1 * unitSeconds p.2 + chunksTotal l := by
  simp [chunksTotal]

theorem parseChunksF_sound : ∀ (fuel : ℕ) (cs : List Char) (l : List (ℚ × Char)),
    parseChunksF fuel cs = some l → IsChunks cs (chunksTotal l) := by
  intro fuel
  induction fuel with
  | zero =>
    intro cs l h
    cases cs with
    | nil =>
      simp only [parseChunksF, Option.some.injEq] at h
      subst h
      simpa [chunksTotal] using IsChunks.nil
    | cons c cs' => exact absurd h (by simp [parseChunksF])
  | succ fuel ih =>
    intro cs l h
    cases cs with
    | nil =>
      simp only [parseChunksF, Option.some.injEq] at h
      subst h
      simpa [chunksTotal] using IsChunks.nil
    | cons c cs' =>
      simp only [parseChunksF] at h
      cases hpc : parseChunk (c :: cs') with
      | none => rw [hpc] at h; exact absurd h (by simp)
      | some pr =>
        obtain ⟨⟨q, u⟩, rest⟩ := pr
        rw [hpc] at h
        simp only [Option.map_eq_some'] at h
        obtain ⟨l', hl', rfl⟩ := h
        have hrec := ih rest l' hl'
        obtain ⟨hu, hdec⟩ := parseChunk_sound hpc
        have htot : chunksTotal ((q, u) :: l') = q * unitSeconds u + chunksTotal l' := by
          simp [chunksTotal]
        rcases hdec with ⟨i, hi, hcs, hq⟩ | ⟨i, f, hi, hf, hcs, hq⟩
        · rw [hcs, htot, hq]; exact IsChunks.intChunk hi hu hrec
        · rw [hcs, htot, hq]; exact IsChunks.fracChunk hi hf hu hrec

theorem parseChunksF_complete {cs : List Char} {t : ℚ} (h : IsChunks cs t) :
    ∀ fuel : ℕ, cs.length ≤ fuel → ∃ l, parseChunksF fuel cs = some l ∧ chunksTotal l = t := by
  induction h with
  | nil =>
    intro fuel _
    refine ⟨[], ?_, by simp [chunksTotal]⟩
    cases fuel <;> rfl
  | intChunk hi hu hrest ih =>
    rename_i i u rest t
    intro fuel hfuel
    obtain ⟨a, i', rfl⟩ : ∃ a i', i = a :: i' := by
      cases i with
      | nil => exact absurd rfl hi.1
      | cons a i' => exact ⟨a, i', rfl⟩
    simp only [List.length_append, List.length_cons] at hfuel
    obtain ⟨fuel', rfl⟩ : ∃ fuel', fuel = fuel' + 1 := ⟨fuel - 1, by omega⟩
    obtain ⟨l', hl', htot⟩ := ih fuel' (by omega)
    refine ⟨(numeralVal (a :: i') [], u) :: l', ?_, by rw [chunksTotal_cons, htot]⟩
    have hchunk := parseChunk_int rest hi hu
    simp only [List.cons_append] at hchunk
    show (match parseChunk (a :: (i' ++ u :: rest)) with
      | none => none
      | some (ch, rest) => (parseChunksF fuel' rest).map (fun l => ch :: l)) =
        some ((numeralVal (a :: i') [], u) :: l')
    rw [hchunk]
    show (parseChunksF fuel' rest).map (fun l => (numeralVal (a :: i') [], u) :: l) =
      some ((numeralVal (a :: i') [], u) :: l')
    rw [hl', Option.map_some']
  | fracChunk hi hf hu hrest ih =>
    rename_i i f u rest t
    intro fuel hfuel
    obtain ⟨a, i', rfl⟩ : ∃ a i', i = a :: i' := by
      cases i with
      | nil => exact absurd rfl hi.1
      | cons a i' => exact ⟨a, i', rfl⟩
    simp only [List.length_append, List.length_cons] at hfuel
    obtain ⟨fuel', rfl⟩ : ∃ fuel', fuel = fuel' + 1 := ⟨fuel - 1, by omega⟩
    obtain ⟨l', hl', htot⟩ := ih fuel' (by omega)
    refine ⟨(numeralVal (a :: i') f, u) :: l', ?_, by rw [chunksTotal_cons, htot]⟩
    have hchunk := parseChunk_frac rest hi hf hu
    simp only [List.cons_append] at hchunk
    show (match parseChunk (a :: (i' ++ '.' :: (f ++ u :: rest))) with
      | none => none
      | some (ch, rest) => (parseChunksF fuel' rest).map (fun l => ch :: l)) =
        some ((numeralVal (a :: i') f, u) :: l')
    rw [hchunk]
    show (parseChunksF fuel' rest).map (fun l => (numeralVal (a :: i') f, u) :: l) =
      some ((numeralVal (a :: i') f, u) :: l')
    rw [hl', Option.map_some']

theorem isChunks_nil_total {t : ℚ} (h : IsChunks [] t) : t = 0 := by
  have aux : ∀ cs t, IsChunks cs t → cs = [] → t = 0 := by
    intro cs t h
    induction h with
    | nil => intro; rfl
    | intChunk _ _ _ _ => intro hcs; exact absurd hcs (by simp)
    | fracChunk _ _ _ _ _ => intro hcs; exact absurd hcs (by simp)
  exact aux [] t h rfl

deriving instance DecidableEq for Except

theorem parse_duration_ok_of {raw v : List Char} {t : ℚ} (hv : pyLower (pyStrip raw) = v)
    (hch : IsChunks v t) (ht : 0 < t) : parse_duration_seconds raw = Except.ok t := by
  have hne : v ≠ [] := by
    intro he
    rw [he] at hch
    rw [isChunks_nil_total hch] at ht
    exact lt_irrefl 0 ht
  obtain ⟨l, hl, htot⟩ := parseChunksF_complete hch v.length le_rfl
  unfold parse_duration_seconds
  rw [hv]
  have hie : v.isEmpty = false := by
    cases v with
    | nil => exact absurd rfl hne
    | cons a t' => rfl
  rw [hie]
  simp only [Bool.false_eq_true, if_false]
  unfold durationChunksParse
  rw [hl]
  show (if chunksTotal l ≤ 0 then Except.error DurationError.nonPositive
      else Except.ok (chunksTotal l)) = Except.ok t
  rw [htot, if_neg (not_le.mpr ht)]

theorem parse_duration_ok_inv {raw : List Char} {t : ℚ}
    (h : parse_duration_seconds raw = Except.ok t) :
    IsChunks (pyLower (pyStrip raw)) t ∧ 0 < t := by
  unfold parse_duration_seconds at h
  split at h
  · exact absurd h (by simp)
  cases hp : durationChunksParse (pyLower (pyStrip raw)) with
  | none => rw [hp] at h; exact absurd h (by simp)
  | some chunks =>
    rw [hp] at h
    have h' : (if chunksTotal chunks ≤ 0 then Except.error DurationError.nonPositive
        else Except.ok (chunksTotal chunks)) = Except.ok t := h
    by_cases hle : chunksTotal chunks ≤ 0
    · rw [if_pos hle] at h'
      exact absurd h' (by simp)
    · rw [if_neg hle] at h'
      have ht : chunksTotal chunks = t := by simpa using h'
      have hs := parseChunksF_sound (pyLower (pyStrip raw)).length (pyLower (pyStrip raw)) chunks
        (by rwa [durationChunksParse] at hp)
      rw [ht] at hs
      exact ⟨hs, ht ▸ not_le.mp hle⟩

/-- C1 (amended): `parse_duration_seconds` returns `t` exactly when the
stripped, lowercased input is a concatenation of `<number><unit>` chunks
(units `s`,`m`,`h`,`d`; values s=1, m=60, h=3600, d=86400, summed) whose
converted total is `t` with `t > 0`; every other input fails.  The
amendment relative to the claim: the chunk shape is required of the
input after the parser's own `strip().lower()` normalization, not of the
raw input, and failures are split into the parser's three distinct
errors rather than a single invalid-duration error. -/
theorem parse_duration_chunks_iff : ∀ (raw : List Char) (t : ℚ),
    parse_duration_seconds raw = Except.ok t ↔ IsChunks (pyLower (pyStrip raw)) t ∧ 0 < t :=
  fun _ _ => ⟨parse_duration_ok_inv, fun h => parse_duration_ok_of rfl h.1 h.2⟩

/-- C1 counterexample: the input consisting of 90s surrounded by spaces
is not a concatenation of chunks (it has leftover whitespace characters),
yet `parse_duration_seconds` succeeds with 90.0 instead of failing with
the invalid-duration error. -/
theorem parse_duration_whitespace_counterexample :
    parse_duration_seconds (" 90s ".toList) = Except.ok 90 ∧
      ¬ parse_duration_seconds (" 90s ".toList) = Except.error DurationError.invalidDuration := by
  have hu : unitSeconds 's' = 1 := rfl
  have h1 : parse_duration_seconds (" 90s ".toList) = Except.ok 90 := by
    apply parse_duration_ok_of (v := ['9', '0', 's'])
    · decide
    · have hd : digitsVal ['9', '0'] = 90 := by decide
      have hd0 : digitsVal ([] : List Char) = 0 := rfl
      have hval : numeralVal ['9', '0'] [] * unitSeconds 's' + 0 = (90 : ℚ) := by
        norm_num [numeralVal, hd, hd0, hu]
      have hck := @IsChunks.intChunk ['9', '0'] 's' [] 0
        ⟨by decide, by decide⟩ (by decide) IsChunks.nil
      rw [hval] at hck
      simpa using hck
    · norm_num
  exact ⟨h1, by rw [h1]; simp⟩

/-- C10: `parse_duration_seconds` normalizes its input by stripping
surrounding whitespace (and lowercasing) before matching, and accepts
fractional counts, so a space-padded, uppercase, fractional input such
as 1.5H with surrounding spaces is accepted and converts exactly. -/
theorem parse_duration_normalizes_input :
    (∀ raw : List Char, parse_duration_seconds raw = parse_duration_seconds (pyStrip raw)) ∧
      parse_duration_seconds (" 1.5H ".toList) = Except.ok 5400 := by
  constructor
  · intro raw
    unfold parse_duration_seconds durationChunksParse
    rw [pyStrip_idem]
  · apply parse_duration_ok_of (v := ['1', '.', '5', 'h'])
    · decide
    · have h1 : digitsVal ['1'] = 1 := by decide
      have h5 : digitsVal ['5'] = 5 := by decide
      have hu : unitSeconds 'h' = 3600 := rfl
      have hval : numeralVal ['1'] ['5'] * unitSeconds 'h' + 0 = (5400 : ℚ) := by
        norm_num [numeralVal, h1, h5, hu]
      have hck := @IsChunks.fracChunk ['1'] ['5'] 'h' [] 0
        ⟨by decide, by decide⟩ ⟨by decide, by decide⟩ (by decide) IsChunks.nil
      rw [hval] at hck
      simpa using hck
    · norm_num

/-! ## Template normalization

Embeds `normalize_template_data` (`template_logic.py`, lines 49–83) over
records whose field values are strings (the code applies `str(...)` to
every value it reads; non-string values are out of scope of the claims).
A `RawRecord` models the dict: `none` is an absent key, and the output
record contains exactly the keys the source writes into `out`.  Each
`raise SystemExit` site is one `NormError` constructor.  The checks run
in source order: required fields (name with the fallback rule, then
description, role_prompt, instructions), profile, scope, specific_to,
repeat_for, repeat_every, then the dangling repeat_every check. -/

inductive NormError where
  | missingField (field : String)
  | emptyField (field : String)
  | invalidScope
  | missingSpecificTo
  | danglingRepeatEvery
  | badDuration (field : String) (e : DurationError)
deriving DecidableEq, Repr

structure RawRecord where
  name : Option String := none
  description : Option String := none
  role_prompt : Option String := none
  instructions : Option String := none
  profile : Option String := none
  scope : Option String := none
  specific_to : Option String := none
  repeat_for : Option String := none
  repeat_every : Option String := none
deriving DecidableEq, Repr

/-- The `ALLOWED_SCOPES` constant (`app_constants.py`). -/
def ALLOWED_SCOPES : List String := ["general", "specific"]

/-- The required-field loop body: missing key, or strip and reject empty. -/
def normRequiredField (field : String) (v : Option String) : Except NormError String :=
  match v with
  | none => .error (.missingField field)
  | some raw =>
    if pyStripS raw = "" then .error (.emptyField field) else .ok (pyStripS raw)

/-- The `name` iteration of the loop: an absent name falls back to
`fallback_name` when that is supplied and truthy (a non-empty string),
copied verbatim without stripping. -/
def normName (v : Option String) (fallback : Option String) : Except NormError String :=
  match v, fallback with
  | none, some f => if f = "" then .error (.missingField "name") else .ok f
  | _, _ => normRequiredField "name" v

/-- `profile`: kept (stripped) only when present and non-empty after strip. -/
def normProfile (v : Option String) : Option String :=
  match v with
  | none => none
  | some p => if pyStripS p = "" then none else some (pyStripS p)

/-- `scope`: default general, strip+lowercase, empty falls back to
general, must be an allowed scope. -/
def normScope (v : Option String) : Except NormError String :=
  if (if pyLowerS (pyStripS (v.getD "general")) = "" then "general"
      else pyLowerS (pyStripS (v.getD "general"))) ∈ ALLOWED_SCOPES then
    .ok (if pyLowerS (pyStripS (v.getD "general")) = "" then "general"
         else pyLowerS (pyStripS (v.getD "general")))
  else .error .invalidScope

/-- `specific_to`: stripped-or-none; required non-empty for specific
scope, dropped for general scope. -/
def normSpecificTo (scope : String) (v : Option String) : Except NormError (Option String) :=
  if scope = "specific" then
    if pyStripS (v.getD "") = "" then .error .missingSpecificTo
    else .ok (some (pyStripS (v.getD "")))
  else .ok none

/-- `repeat_for` / `repeat_every`: stripped-or-none; when present the
stripped text must parse as a duration and is stored as that stripped
text (not re-rendered). -/
def normDurationField (field : String) (v : Option String) : Except NormError (Option String) :=
  if pyStripS (v.getD "") = "" then .ok none
  else match parse_duration_seconds (pyStripS (v.getD "")).toList with
    | .error e => .error (.badDuration field e)
    | .ok _ => .ok (some (pyStripS (v.getD "")))

/-- The `out` record assembled by `normalize_template_data`. -/
def mkNormOut (name description role_prompt instructions : String) (profile : Option String)
    (scope : String) (specific_to repeat_for repeat_every : Option String) : RawRecord :=
  { name := some name, description := some description, role_prompt := some role_prompt,
    instructions := some instructions, profile := profile, scope := some scope,
    specific_to := specific_to, repeat_for := repeat_for, repeat_every := repeat_every }

/-- `normalize_template_data(data, fallback_name)` (`template_logic.py`
49–83), as the source's sequence of checks. -/
def normalize_template_data (d : RawRecord) (fallback_name : Option String) :
    Except NormError RawRecord :=
  Except.bind (normName d.name fallback_name) (fun name =>
  Except.bind (normRequiredField "description" d.description) (fun description =>
  Except.bind (normRequiredField "role_prompt" d.role_prompt) (fun role_prompt =>
  Except.bind (normRequiredField "instructions" d.instructions) (fun instructions =>
  Except.bind (normScope d.scope) (fun scope =>
  Except.bind (normSpecificTo scope d.specific_to) (fun specific_to =>
  Except.bind (normDurationField "repeat_for" d.repeat_for) (fun repeat_for =>
  Except.bind (normDurationField "repeat_every" d.repeat_every) (fun repeat_every =>
  if repeat_every.isSome && repeat_for.isNone then .error .danglingRepeatEvery
  else .ok (mkNormOut name description role_prompt instructions (normProfile d.profile)
    scope specific_to repeat_for repeat_every)))))))))

/-- Sample records to instantiate the normalizer theorems on. -/
def sampleSpecificRecord : RawRecord :=
  { name := some "n", description := some "d", role_prompt := some "r",
    instructions := some "i", scope := some "specific", specific_to := some "svc" }

def sampleSpecificOut : RawRecord :=
  { name := some "n", description := some "d", role_prompt := some "r",
    instructions := some "i", profile := none, scope := some "specific",
    specific_to := some "svc", repeat_for := none, repeat_every := none }

/-- A record with no name, normalized with a fallback name that is not
its own trimmed form. -/
def fallbackRawRecord : RawRecord :=
  { description := some "d", role_prompt := some "r", instructions := some "i" }

def fallbackFirstOut : RawRecord :=
  { name := some " x ", description := some "d", role_prompt := some "r",
    instructions := some "i", scope := some "general" }

theorem except_bind_ok {ε α β : Type} (a : α) (f : α → Except ε β) :
    Except.bind (Except.ok a) f = f a := rfl

theorem except_bind_ok_inv {ε α β : Type} {x : Except ε α} {f : α → Except ε β} {b : β}
    (h : Except.bind x f = Except.ok b) : ∃ a, x = Except.ok a ∧ f a = Except.ok b := by
  cases x with
  | error e =>
    rw [show Except.bind (Except.error e : Except ε α) f = Except.error e from rfl] at h
    exact absurd h (by simp)
  | ok a => exact ⟨a, rfl, h⟩

theorem normRequiredField_ok_inv {field : String} {v : Option String} {s : String}
    (h : normRequiredField field v = Except.ok s) : pyStripS s = s ∧ s ≠ "" := by
  cases v with
  | none => exact absurd h (by simp [normRequiredField])
  | some raw =>
    have h' : (if pyStripS raw = "" then Except.error (NormError.emptyField field)
        else Except.ok (pyStripS raw)) = Except.ok s := h
    by_cases he : pyStripS raw = ""
    · rw [if_pos he] at h'; exact absurd h' (by simp)
    · rw [if_neg he] at h'
      have hs : pyStripS raw = s := by simpa using h'
      subst hs
      exact ⟨pyStripS_idem raw, he⟩

theorem normRequiredField_fix (field : String) {s : String}
    (h1 : pyStripS s = s) (h2 : s ≠ "") :
    normRequiredField field (some s) = Except.ok s := by
  simp [normRequiredField, h1, h2]

theorem normName_ok_inv {v fb : Option String} {n : String}
    (h : normName v fb = Except.ok n) (hfb : ∀ f, fb = some f → pyStripS f = f) :
    pyStripS n = n ∧ n ≠ "" := by
  cases v with
  | some raw =>
    cases fb with
    | none =>
      exact normRequiredField_ok_inv (show normRequiredField "name" (some raw) = Except.ok n from h)
    | some f =>
      exact normRequiredField_ok_inv (show normRequiredField "name" (some raw) = Except.ok n from h)
  | none =>
    cases fb with
    | none => exact absurd h (by simp [normName, normRequiredField])
    | some f =>
      have h' : (if f = "" then Except.error (NormError.missingField "name")
          else Except.ok f) = Except.ok n := h
      by_cases hf : f = ""
      · rw [if_pos hf] at h'; exact absurd h' (by simp)
      · rw [if_neg hf] at h'
        have hn : f = n := by simpa using h'
        subst hn
        exact ⟨hfb f rfl, hf⟩

theorem normName_fix {n : String} (h1 : pyStripS n = n) (h2 : n ≠ "") (fb2 : Option String) :
    normName (some n) fb2 = Except.ok n := by
  cases fb2 with
  | none => exact normRequiredField_fix "name" h1 h2
  | some f => exact normRequiredField_fix "name" h1 h2

theorem normProfile_idem (v : Option String) : normProfile (normProfile v) = normProfile v := by
  cases v with
  | none => rfl
  | some p =>
    by_cases he : pyStripS p = ""
    · have h1 : normProfile (some p) = none := by simp [normProfile, he]
      rw [h1]; rfl
    · have h1 : normProfile (some p) = some (pyStripS p) := by simp [normProfile, he]
      rw [h1]
      show (if pyStripS (pyStripS p) = "" then none else some (pyStripS (pyStripS p)))
        = some (pyStripS p)
      rw [pyStripS_idem, if_neg he]

theorem normScope_ok_inv {v : Option String} {s : String} (h : normScope v = Except.ok s) :
    s = "general" ∨ s = "specific" := by
  unfold normScope at h
  generalize hs0 : (if pyLowerS (pyStripS (v.getD "general")) = "" then "general"
      else pyLowerS (pyStripS (v.getD "general"))) = s0 at h
  by_cases hmem : s0 ∈ ALLOWED_SCOPES
  · rw [if_pos hmem] at h
    have hs : s0 = s := by simpa using h
    subst hs
    simpa [ALLOWED_SCOPES] using hmem
  · rw [if_neg hmem] at h
    exact absurd h (by simp)

theorem normScope_fix {s : String} (h : s = "general" ∨ s = "specific") :
    normScope (some s) = Except.ok s := by
  rcases h with rfl | rfl <;> decide

theorem normSpecificTo_ok_inv {s : String} {v r : Option String}
    (h : normSpecificTo s v = Except.ok r) :
    (s = "specific" → ∃ st, r = some st ∧ st ≠ "" ∧ pyStripS st = st) ∧
      (s ≠ "specific" → r = none) := by
  unfold normSpecificTo at h
  by_cases hs : s = "specific"
  · rw [if_pos hs] at h
    by_cases he : pyStripS (v.getD "") = ""
    · rw [if_pos he] at h; exact absurd h (by simp)
    · rw [if_neg he] at h
      have hr : some (pyStripS (v.getD "")) = r := by simpa using h
      exact ⟨fun _ => ⟨pyStripS (v.getD ""), hr.symm, he, pyStripS_idem _⟩,
        fun hn => absurd hs hn⟩
  · rw [if_neg hs] at h
    have hr : r = none := by simpa using h.symm
    exact ⟨fun h' => absurd h' hs, fun _ => hr⟩

theorem normSpecificTo_fix {s : String} {v r : Option String}
    (h : normSpecificTo s v = Except.ok r) : normSpecificTo s r = Except.ok r := by
  obtain ⟨h1, h2⟩ := normSpecificTo_ok_inv h
  by_cases hs : s = "specific"
  · obtain ⟨st, rfl, hne, hidem⟩ := h1 hs
    simp [normSpecificTo, hs, hidem, hne]
  · rw [h2 hs]
    unfold normSpecificTo
    rw [if_neg hs]

theorem normDurationField_ok_inv {field : String} {v r : Option String}
    (h : normDurationField field v = Except.ok r) :
    r = none ∨ ∃ st q, r = some st ∧ pyStripS st = st ∧ st ≠ "" ∧
      parse_duration_seconds st.toList = Except.ok q := by
  unfold normDurationField at h
  by_cases he : pyStripS (v.getD "") = ""
  · rw [if_pos he] at h
    exact Or.inl (by simpa using h.symm)
  · rw [if_neg he] at h
    cases hp : parse_duration_seconds (pyStripS (v.getD "")).toList with
    | error e => rw [hp] at h; exact absurd h (by simp)
    | ok q =>
      rw [hp] at h
      have hr : some (pyStripS (v.getD "")) = r := by simpa using h
      exact Or.inr ⟨pyStripS (v.getD ""), q, hr.symm, pyStripS_idem _, he, hp⟩

theorem normDurationField_fix {field : String} {v r : Option String}
    (h : normDurationField field v = Except.ok r) :
    normDurationField field r = Except.ok r := by
  rcases normDurationField_ok_inv h with rfl | ⟨st, q, rfl, h1, h2, h3⟩
  · simp [normDurationField, show pyStripS "" = "" from by decide]
  · unfold normDurationField
    rw [show (some st).getD "" = st from rfl, h1, if_neg h2,
      show parse_duration_seconds st.toList = Except.ok q from h3]


/-- C2 (amended): re-normalizing a normalizer output is the identity,
provided that when the record's name was filled in from the truthy
fallback name, that fallback equals its own trimmed form (the source
copies the fallback verbatim without stripping it, so an untrimmed
fallback breaks the fixed point — see the counterexample). -/
theorem normalize_template_data_idem :
    ∀ (d : RawRecord) (fb fb2 : Option String) (out : RawRecord),
      normalize_template_data d fb = Except.ok out →
      (∀ f, fb = some f → pyStripS f = f) →
      normalize_template_data out fb2 = Except.ok out := by
  intro d fb fb2 out h hfb
  unfold normalize_template_data at h
  obtain ⟨name, hname, h⟩ := except_bind_ok_inv h
  obtain ⟨description, hdesc, h⟩ := except_bind_ok_inv h
  obtain ⟨role_prompt, hrole, h⟩ := except_bind_ok_inv h
  obtain ⟨instructions, hinst, h⟩ := except_bind_ok_inv h
  obtain ⟨scope, hscope, h⟩ := except_bind_ok_inv h
  obtain ⟨specific_to, hst, h⟩ := except_bind_ok_inv h
  obtain ⟨repeat_for, hrf, h⟩ := except_bind_ok_inv h
  obtain ⟨repeat_every, hre, h⟩ := except_bind_ok_inv h
  by_cases hcond : (repeat_every.isSome && repeat_for.isNone) = true
  · rw [if_pos hcond] at h
    exact absurd h (by simp)
  · rw [if_neg hcond] at h
    have hout : out = mkNormOut name description role_prompt instructions
        (normProfile d.profile) scope specific_to repeat_for repeat_every := by
      have h2 := h
      simp only [Except.ok.injEq] at h2
      exact h2.symm
    subst hout
    obtain ⟨hn1, hn2⟩ := normName_ok_inv hname hfb
    obtain ⟨hd1, hd2⟩ := normRequiredField_ok_inv hdesc
    obtain ⟨hr1, hr2⟩ := normRequiredField_ok_inv hrole
    obtain ⟨hi1, hi2⟩ := normRequiredField_ok_inv hinst
    unfold normalize_template_data
    simp only [mkNormOut, normName_fix hn1 hn2 fb2, except_bind_ok,
      normRequiredField_fix "description" hd1 hd2,
      normRequiredField_fix "role_prompt" hr1 hr2,
      normRequiredField_fix "instructions" hi1 hi2,
      normScope_fix (normScope_ok_inv hscope),
      normSpecificTo_fix hst, normDurationField_fix hrf, normDurationField_fix hre]
    rw [if_neg hcond, normProfile_idem]

/-- C2 counterexample: the record lacking a name normalizes, with
fallback name consisting of x surrounded by spaces, to an output whose
name is the verbatim fallback; re-normalizing that output — with the
same fallback or with none — strips the name and yields a different
record, so normalization is not idempotent as claimed. -/
theorem normalize_fallback_counterexample :
    normalize_template_data fallbackRawRecord (some " x ") = Except.ok fallbackFirstOut ∧
      normalize_template_data fallbackFirstOut (some " x ") ≠ Except.ok fallbackFirstOut ∧
      normalize_template_data fallbackFirstOut none ≠ Except.ok fallbackFirstOut := by
  refine ⟨by decide, by decide, by decide⟩

/-- C2 witness: a concrete specific-scope record normalizes to
`sampleSpecificOut`, and re-normalizing that output reproduces it. -/
theorem normalize_template_data_idem_witness :
    normalize_template_data sampleSpecificOut none = Except.ok sampleSpecificOut :=
  normalize_template_data_idem sampleSpecificRecord none none sampleSpecificOut
    (by decide) (fun f hf => by cases hf)

/-- C3: every normalizer output has scope specific exactly when it
carries a non-empty specific_to, and a general-scope output never
carries specific_to. -/
theorem normalize_scope_specific_iff :
    ∀ (d : RawRecord) (fb : Option String) (out : RawRecord),
      normalize_template_data d fb = Except.ok out →
      ((out.scope = some "specific" ↔ ∃ s, out.specific_to = some s ∧ s ≠ "") ∧
        (out.scope = some "general" → out.specific_to = none)) := by
  intro d fb out h
  unfold normalize_template_data at h
  obtain ⟨name, hname, h⟩ := except_bind_ok_inv h
  obtain ⟨description, hdesc, h⟩ := except_bind_ok_inv h
  obtain ⟨role_prompt, hrole, h⟩ := except_bind_ok_inv h
  obtain ⟨instructions, hinst, h⟩ := except_bind_ok_inv h
  obtain ⟨scope, hscope, h⟩ := except_bind_ok_inv h
  obtain ⟨specific_to, hst, h⟩ := except_bind_ok_inv h
  obtain ⟨repeat_for, hrf, h⟩ := except_bind_ok_inv h
  obtain ⟨repeat_every, hre, h⟩ := except_bind_ok_inv h
  by_cases hcond : (repeat_every.isSome && repeat_for.isNone) = true
  · rw [if_pos hcond] at h
    exact absurd h (by simp)
  · rw [if_neg hcond] at h
    have hout : out = mkNormOut name description role_prompt instructions
        (normProfile d.profile) scope specific_to repeat_for repeat_every := by
      have h2 := h
      simp only [Except.ok.injEq] at h2
      exact h2.symm
    subst hout
    simp only [mkNormOut]
    obtain ⟨h1, h2⟩ := normSpecificTo_ok_inv hst
    rcases normScope_ok_inv hscope with rfl | rfl
    · refine ⟨⟨fun hgs => absurd hgs (by decide), ?_⟩, fun _ => h2 (by decide)⟩
      rintro ⟨s, hs, hsne⟩
      rw [h2 (by decide)] at hs
      exact absurd hs (by simp)
    · obtain ⟨st, rfl, hne, -⟩ := h1 rfl
      exact ⟨⟨fun _ => ⟨st, rfl, hne⟩, fun _ => rfl⟩, fun hg => absurd hg (by decide)⟩

/-- C3 witness: the concrete specific-scope output satisfies both
invariants. -/
theorem normalize_scope_specific_iff_witness :
    (sampleSpecificOut.scope = some "specific" ↔
        ∃ s, sampleSpecificOut.specific_to = some s ∧ s ≠ "") ∧
      (sampleSpecificOut.scope = some "general" → sampleSpecificOut.specific_to = none) :=
  normalize_scope_specific_iff sampleSpecificRecord none sampleSpecificOut (by decide)

/-! ## Variable rendering

Embeds `render_text_with_vars` (`prompting.py`, lines 24–34) and
`VAR_PATTERN` (`app_constants.py`, line 25), the regex matching two
opening braces, optional whitespace, a key `[a-zA-Z_][a-zA-Z0-9_.-]*`,
optional whitespace and two closing braces.  `re.sub` scans left to
right; at each position the pattern either matches (deterministically,
because the whitespace class, the key classes and the brace are pairwise
disjoint where the pattern is greedy — proved via `matchVar_of_placeholder`
and `matchVar_some_shape`) or the scan advances one character, and a
replacement is emitted without being rescanned.  The missing-key set is
a `Finset String`, mirroring the Python `set`. -/

/-- First key character class: `[a-zA-Z_]`. -/
def keyStartChar (c : Char) : Bool := c.isAlpha || c = '_'

/-- Key character class: `[a-zA-Z0-9_.-]`. -/
def keyChar (c : Char) : Bool := c.isAlpha || c.isDigit || c = '_' || c = '.' || c = '-'

/-- The text of a full placeholder: braces, inner whitespace, key. -/
def placeholderText (w1 k w2 : List Char) : List Char :=
  '{' :: '{' :: (w1 ++ k ++ w2 ++ ['}', '}'])

/-- A valid key: non-empty, head in the start class, tail in the key class. -/
def goodKey : List Char → Bool
  | [] => false
  | c :: cs => keyStartChar c && cs.all keyChar

/-- `VAR_PATTERN` matches at the head of `cs`: some well-formed
placeholder is a prefix of `cs`. -/
def StartsPlaceholder (cs : List Char) : Prop :=
  ∃ w1 k w2 rest, w1.all isPyWs = true ∧ goodKey k = true ∧ w2.all isPyWs = true ∧
    cs = placeholderText w1 k w2 ++ rest

theorem keyStart_not_ws {c : Char} (h : keyStartChar c = true) : isPyWs c = false := by
  cases hw : isPyWs c
  · rfl
  · exfalso
    simp only [isPyWs, Bool.or_eq_true, decide_eq_true_eq] at hw
    rcases hw with ((((rfl | rfl) | rfl) | rfl) | rfl) | rfl <;> exact absurd h (by decide)

theorem ws_not_keyChar {c : Char} (h : isPyWs c = true) : keyChar c = false := by
  simp only [isPyWs, Bool.or_eq_true, decide_eq_true_eq] at h
  rcases h with ((((rfl | rfl) | rfl) | rfl) | rfl) | rfl <;> decide

theorem all_takeWhile (p : Char → Bool) (l : List Char) :
    (l.takeWhile p).all p = true := by
  rw [List.all_eq_true]
  exact fun x hx => List.mem_takeWhile_imp hx

/-- Stage 3 of the pattern: after the key, greedy whitespace then the
two closing braces; on success the match is the full placeholder. -/
def matchVarAfterKey (w1 k r3 : List Char) : Option (List Char × String × List Char) :=
  match r3.dropWhile isPyWs with
  | d1 :: d2 :: r5 =>
    if d1 = '}' ∧ d2 = '}' then
      some (placeholderText w1 k (r3.takeWhile isPyWs), String.mk k, r5)
    else none
  | _ => none

/-- Stage 2: after the opening braces and greedy whitespace, a key-start
character followed by the greedy run of key characters. -/
def matchVarAfterWs (w1 r1 : List Char) : Option (List Char × String × List Char) :=
  match r1 with
  | c :: r2 =>
    if keyStartChar c then
      matchVarAfterKey w1 (c :: r2.takeWhile keyChar) (r2.dropWhile keyChar)
    else none
  | [] => none

/-- Attempt to match `VAR_PATTERN` at the head of the input, greedily as
the regex engine does; on success returns the matched text, the key
(group 1) and the rest of the input. -/
def matchVar (cs : List Char) : Option (List Char × String × List Char) :=
  match cs with
  | c1 :: c2 :: rest =>
    if c1 = '{' ∧ c2 = '{' then
      matchVarAfterWs (rest.takeWhile isPyWs) (rest.dropWhile isPyWs)
    else none
  | _ => none

theorem matchVarAfterKey_eval {w2 : List Char} (hw2' : ∀ x ∈ w2, isPyWs x = true)
    (w1 k rest : List Char) :
    matchVarAfterKey w1 k (w2 ++ ('}' :: '}' :: rest)) =
      some (placeholderText w1 k w2, String.mk k, rest) := by
  obtain ⟨ht3, hd3⟩ := takeWhile_append_not isPyWs w2 '}' ('}' :: rest) hw2' (by decide)
  unfold matchVarAfterKey
  rw [hd3, ht3]
  simp

theorem matchVar_of_placeholder {w1 k w2 : List Char} (rest : List Char)
    (hw1 : w1.all isPyWs = true) (hk : goodKey k = true) (hw2 : w2.all isPyWs = true) :
    matchVar (placeholderText w1 k w2 ++ rest) =
      some (placeholderText w1 k w2, String.mk k, rest) := by
  obtain ⟨kc, k', rfl⟩ : ∃ kc k', k = kc :: k' := by
    cases k with
    | nil => exact absurd hk (by simp [goodKey])
    | cons kc k' => exact ⟨kc, k', rfl⟩
  have hkc : keyStartChar kc = true := by
    simp only [goodKey, Bool.and_eq_true] at hk
    exact hk.1
  have hk' : ∀ x ∈ k', keyChar x = true := by
    simp only [goodKey, Bool.and_eq_true, List.all_eq_true] at hk
    exact hk.2
  have hw1' : ∀ x ∈ w1, isPyWs x = true := List.all_eq_true.mp hw1
  have hw2' : ∀ x ∈ w2, isPyWs x = true := List.all_eq_true.mp hw2
  have hshape : placeholderText w1 (kc :: k') w2 ++ rest
      = '{' :: '{' :: (w1 ++ kc :: (k' ++ (w2 ++ ('}' :: '}' :: rest)))) := by
    simp [placeholderText, List.append_assoc]
  obtain ⟨ht1, hd1⟩ := takeWhile_append_not isPyWs w1 kc (k' ++ (w2 ++ ('}' :: '}' :: rest)))
    hw1' (keyStart_not_ws hkc)
  have hnk : ∃ nk nrest, w2 ++ ('}' :: '}' :: rest) = nk :: nrest ∧ keyChar nk = false := by
    cases w2 with
    | nil => exact ⟨'}', '}' :: rest, rfl, by decide⟩
    | cons b w2' =>
      exact ⟨b, w2' ++ ('}' :: '}' :: rest), by simp, ws_not_keyChar (hw2' b (by simp))⟩
  obtain ⟨nk, nrest, hnkeq, hnkc⟩ := hnk
  obtain ⟨ht2, hd2⟩ := takeWhile_append_not keyChar k' nk nrest hk' hnkc
  rw [hshape]
  simp only [matchVar]
  rw [if_pos ⟨trivial, trivial⟩, ht1, hd1]
  simp only [matchVarAfterWs]
  rw [if_pos hkc]
  rw [show k' ++ (w2 ++ ('}' :: '}' :: rest)) = k' ++ nk :: nrest from by rw [hnkeq]]
  rw [ht2, hd2, ← hnkeq]
  exact matchVarAfterKey_eval hw2' w1 (kc :: k') rest

theorem matchVarAfterKey_some_inv {w1 k r3 m : List Char} {key : String} {r : List Char}
    (h : matchVarAfterKey w1 k r3 = some (m, key, r)) :
    r3.dropWhile isPyWs = '}' :: '}' :: r ∧ m = placeholderText w1 k (r3.takeWhile isPyWs) ∧
      key = String.mk k := by
  unfold matchVarAfterKey at h
  cases hd : r3.dropWhile isPyWs with
  | nil => rw [hd] at h; exact absurd h (by simp)
  | cons d1 tail =>
    cases tail with
    | nil => rw [hd] at h; exact absurd h (by simp)
    | cons d2 r5 =>
      rw [hd] at h
      have h' : (if d1 = '}' ∧ d2 = '}' then
          some (placeholderText w1 k (r3.takeWhile isPyWs), String.mk k, r5)
          else none) = some (m, key, r) := h
      by_cases hb : d1 = '}' ∧ d2 = '}'
      · obtain ⟨rfl, rfl⟩ := hb
        rw [if_pos ⟨rfl, rfl⟩] at h'
        obtain ⟨hm, hkey, hr⟩ : placeholderText w1 k (r3.takeWhile isPyWs) = m ∧
            String.mk k = key ∧ r5 = r := by
          simpa [Prod.ext_iff] using h'
        subst hr
        exact ⟨rfl, hm.symm, hkey.symm⟩
      · rw [if_neg hb] at h'
        exact absurd h' (by simp)

theorem matchVarAfterWs_some_inv {w1 r1 m : List Char} {key : String} {r : List Char}
    (h : matchVarAfterWs w1 r1 = some (m, key, r)) :
    ∃ c r2, r1 = c :: r2 ∧ keyStartChar c = true ∧
      matchVarAfterKey w1 (c :: r2.takeWhile keyChar) (r2.dropWhile keyChar) = some (m, key, r) := by
  cases r1 with
  | nil => exact absurd h (by simp [matchVarAfterWs])
  | cons c r2 =>
    have h' : (if keyStartChar c then
        matchVarAfterKey w1 (c :: r2.takeWhile keyChar) (r2.dropWhile keyChar)
        else none) = some (m, key, r) := h
    by_cases hb : keyStartChar c = true
    · rw [if_pos hb] at h'
      exact ⟨c, r2, rfl, hb, h'⟩
    · rw [if_neg (by simpa using hb)] at h'
      exact absurd h' (by simp)

theorem matchVar_some_shape {cs m : List Char} {key : String} {r : List Char}
    (h : matchVar cs = some (m, key, r)) :
    ∃ w1 k w2, w1.all isPyWs = true ∧ goodKey k = true ∧ w2.all isPyWs = true ∧
      m = placeholderText w1 k w2 ∧ key = String.mk k ∧ cs = m ++ r := by
  cases cs with
  | nil => exact absurd h (by simp [matchVar])
  | cons c1 tail =>
    cases tail with
    | nil => exact absurd h (by simp [matchVar])
    | cons c2 rest =>
      have h' : (if c1 = '{' ∧ c2 = '{' then
          matchVarAfterWs (rest.takeWhile isPyWs) (rest.dropWhile isPyWs)
          else none) = some (m, key, r) := h
      by_cases hb : c1 = '{' ∧ c2 = '{'
      swap
      · rw [if_neg hb] at h'; exact absurd h' (by simp)
      obtain ⟨rfl, rfl⟩ := hb
      rw [if_pos ⟨rfl, rfl⟩] at h'
      obtain ⟨c, r2, hr1, hks, hk⟩ := matchVarAfterWs_some_inv h'
      obtain ⟨hdrop, hm, hkey⟩ := matchVarAfterKey_some_inv hk
      refine ⟨rest.takeWhile isPyWs, c :: r2.takeWhile keyChar,
        (r2.dropWhile keyChar).takeWhile isPyWs, all_takeWhile isPyWs rest, ?_, 
        all_takeWhile isPyWs (r2.dropWhile keyChar), hm, hkey, ?_⟩
      · simp only [goodKey, Bool.and_eq_true]
        exact ⟨hks, all_takeWhile keyChar r2⟩
      · have e1 : rest = rest.takeWhile isPyWs ++ (c :: r2) := by
          rw [← hr1, List.takeWhile_append_dropWhile]
        have e2 : r2 = r2.takeWhile keyChar ++ r2.dropWhile keyChar :=
          (List.takeWhile_append_dropWhile (p := keyChar) (l := r2)).symm
        have e3 : r2.dropWhile keyChar =
            (r2.dropWhile keyChar).takeWhile isPyWs ++ ('}' :: '}' :: r) := by
          rw [← hdrop, List.takeWhile_append_dropWhile]
        have expand : rest = rest.takeWhile isPyWs ++ (c :: (r2.takeWhile keyChar ++
            ((r2.dropWhile keyChar).takeWhile isPyWs ++ ('}' :: '}' :: r)))) := by
          rw [← e3, ← e2, ← e1]
        rw [hm]
        show '{' :: '{' :: rest = placeholderText (rest.takeWhile isPyWs)
          (c :: r2.takeWhile keyChar) ((r2.dropWhile keyChar).takeWhile isPyWs) ++ r
        conv_lhs => rw [expand]
        simp [placeholderText, List.append_assoc]

theorem matchVar_length {cs m : List Char} {key : String} {r : List Char}
    (h : matchVar cs = some (m, key, r)) : r.length < cs.length := by
  obtain ⟨w1, k, w2, -, -, -, hm, -, hcs⟩ := matchVar_some_shape h
  rw [hcs, hm]
  simp [placeholderText]
  omega

/-- One render pass with fuel (always instantiated with the text
length): at each position either the pattern matches — substitute when
the key is mapped, otherwise keep the matched text and record the key —
and the scan resumes after the match without rescanning the
replacement, or the scan advances one character. -/
def renderF (vars : String → Option (List Char)) : ℕ → List Char → List Char × Finset String
  | _, [] => ([], ∅)
  | 0, c :: cs => (c :: cs, ∅)
  | Nat.succ fuel, c :: cs =>
    match matchVar (c :: cs) with
    | some (m, key, rest) =>
      match vars key with
      | some v => (v ++ (renderF vars fuel rest).1, (renderF vars fuel rest).2)
      | none => (m ++ (renderF vars fuel rest).1, insert key (renderF vars fuel rest).2)
    | none => (c :: (renderF vars fuel cs).1, (renderF vars fuel cs).2)

/-- `render_text_with_vars(text, variables)` (`prompting.py` 24–34):
`VAR_PATTERN.sub(repl, text)` plus the collected missing-key set. -/
def render_text_with_vars (text : List Char) (vars : String → Option (List Char)) :
    List Char × Finset String :=
  renderF vars text.length text

theorem renderF_fuel_eq (vars : String → Option (List Char)) :
    ∀ (f1 f2 : ℕ) (cs : List Char), cs.length ≤ f1 → cs.length ≤ f2 →
      renderF vars f1 cs = renderF vars f2 cs := by
  intro f1
  induction f1 with
  | zero =>
    intro f2 cs h1 h2
    cases cs with
    | nil => cases f2 <;> rfl
    | cons c cs' => simp at h1
  | succ f ih =>
    intro f2 cs h1 h2
    cases cs with
    | nil => cases f2 <;> rfl
    | cons c cs' =>
      obtain ⟨f2', rfl⟩ : ∃ f2', f2 = f2' + 1 := by
        cases f2 with
        | zero => simp at h2
        | succ n => exact ⟨n, rfl⟩
      simp only [List.length_cons] at h1 h2
      simp only [renderF]
      cases hm : matchVar (c :: cs') with
      | none =>
        show (c :: (renderF vars f cs').1, (renderF vars f cs').2)
          = (c :: (renderF vars f2' cs').1, (renderF vars f2' cs').2)
        rw [ih f2' cs' (by omega) (by omega)]
      | some triple =>
        obtain ⟨m, key, rest⟩ := triple
        have hlen := matchVar_length hm
        simp only [List.length_cons] at hlen
        show (match vars key with
          | some v => (v ++ (renderF vars f rest).1, (renderF vars f rest).2)
          | none => (m ++ (renderF vars f rest).1, insert key (renderF vars f rest).2))
          = (match vars key with
          | some v => (v ++ (renderF vars f2' rest).1, (renderF vars f2' rest).2)
          | none => (m ++ (renderF vars f2' rest).1, insert key (renderF vars f2' rest).2))
        rw [ih f2' rest (by omega) (by omega)]

theorem startsPlaceholder_of_matchVar_some {cs m : List Char} {key : String} {r : List Char}
    (h : matchVar cs = some (m, key, r)) : StartsPlaceholder cs := by
  obtain ⟨w1, k, w2, hw1, hk, hw2, hm, -, hcs⟩ := matchVar_some_shape h
  exact ⟨w1, k, w2, r, hw1, hk, hw2, by rw [hcs, hm]⟩

theorem not_startsPlaceholder_of_matchVar_none {cs : List Char} (h : matchVar cs = none) :
    ¬ StartsPlaceholder cs := by
  rintro ⟨w1, k, w2, rest, hw1, hk, hw2, rfl⟩
  rw [matchVar_of_placeholder rest hw1 hk hw2] at h
  simp at h

/-- The tokens of a decomposition of the input: literal characters and
well-formed placeholders. -/
inductive Tok where
  | lit : Char → Tok
  | var : List Char → List Char → List Char → Tok

/-- The source text of a token. -/
def Tok.src : Tok → List Char
  | .lit c => [c]
  | .var w1 k w2 => placeholderText w1 k w2

/-- What the renderer emits for a token: literal characters unchanged,
a mapped placeholder replaced by its value, an unmapped one kept. -/
def Tok.out (vars : String → Option (List Char)) : Tok → List Char
  | .lit c => [c]
  | .var w1 k w2 =>
    match vars (String.mk k) with
    | some v => v
    | none => placeholderText w1 k w2

/-- The missing keys a token contributes: the key of an unmapped placeholder. -/
def Tok.miss (vars : String → Option (List Char)) : Tok → Finset String
  | .lit _ => ∅
  | .var _ k _ =>
    match vars (String.mk k) with
    | some _ => ∅
    | none => {String.mk k}

def srcOf (ts : List Tok) : List Char := (ts.map Tok.src).flatten

def outOf (vars : String → Option (List Char)) (ts : List Tok) : List Char :=
  (ts.map (Tok.out vars)).flatten

def missOf (vars : String → Option (List Char)) (ts : List Tok) : Finset String :=
  ts.foldr (fun t acc => Tok.miss vars t ∪ acc) ∅

/-- A decomposition is valid when every placeholder token is well
formed (whitespace runs, key matching the key regex) and no placeholder
starts at any literal position — i.e. the literals are exactly the
positions the pattern does not match. -/
def ValidDecomp : List Tok → Prop
  | [] => True
  | .lit c :: ts => ¬ StartsPlaceholder (srcOf (.lit c :: ts)) ∧ ValidDecomp ts
  | .var w1 k w2 :: ts =>
      w1.all isPyWs = true ∧ goodKey k = true ∧ w2.all isPyWs = true ∧ ValidDecomp ts

theorem srcOf_cons (t : Tok) (ts : List Tok) : srcOf (t :: ts) = t.src ++ srcOf ts := by
  simp [srcOf]

theorem outOf_cons (vars : String → Option (List Char)) (t : Tok) (ts : List Tok) :
    outOf vars (t :: ts) = t.out vars ++ outOf vars ts := by
  simp [outOf]

theorem missOf_cons (vars : String → Option (List Char)) (t : Tok) (ts : List Tok) :
    missOf vars (t :: ts) = t.miss vars ∪ missOf vars ts := rfl

theorem renderF_decomp (vars : String → Option (List Char)) :
    ∀ (fuel : ℕ) (text : List Char), text.length ≤ fuel →
      ∃ ts : List Tok, srcOf ts = text ∧ ValidDecomp ts ∧
        renderF vars fuel text = (outOf vars ts, missOf vars ts) := by
  intro fuel
  induction fuel with
  | zero =>
    intro text h
    obtain rfl : text = [] := List.length_eq_zero.mp (Nat.le_zero.mp h)
    exact ⟨[], rfl, trivial, rfl⟩
  | succ f ih =>
    intro text h
    cases text with
    | nil => exact ⟨[], rfl, trivial, rfl⟩
    | cons c cs =>
      simp only [List.length_cons] at h
      cases hm : matchVar (c :: cs) with
      | some triple =>
        obtain ⟨m, key, rest⟩ := triple
        have hlen := matchVar_length hm
        simp only [List.length_cons] at hlen
        obtain ⟨w1, k, w2, hw1, hk, hw2, hmeq, hkeyeq, hcs⟩ := matchVar_some_shape hm
        obtain ⟨ts', hsrc, hvalid, hrender⟩ := ih rest (by omega)
        refine ⟨Tok.var w1 k w2 :: ts', ?_, ⟨hw1, hk, hw2, hvalid⟩, ?_⟩
        · rw [srcOf_cons, hsrc]
          show placeholderText w1 k w2 ++ rest = c :: cs
          rw [← hmeq, ← hcs]
        · simp only [renderF, hm]
          subst hkeyeq hmeq
          cases hv : vars (String.mk k) with
          | some v =>
            simp [outOf_cons, missOf_cons, Tok.out, Tok.miss, hv, hrender]
          | none =>
            simp [outOf_cons, missOf_cons, Tok.out, Tok.miss, hv, hrender, Finset.insert_eq]
      | none =>
        obtain ⟨ts', hsrc, hvalid, hrender⟩ := ih cs (by omega)
        have hsrcl : srcOf (Tok.lit c :: ts') = c :: cs := by
          rw [srcOf_cons, hsrc]; rfl
        refine ⟨Tok.lit c :: ts', hsrcl, ⟨?_, hvalid⟩, ?_⟩
        · rw [hsrcl]
          exact not_startsPlaceholder_of_matchVar_none hm
        · simp [renderF, hm, outOf_cons, missOf_cons, Tok.out, Tok.miss, hrender]

/-- C5: the rendering of any text against any variable mapping is
described exactly by a valid decomposition of the text into literal
characters (the positions the pattern does not match) and well-formed
placeholders: each placeholder is replaced by its mapped value when its
key is in the mapping and kept verbatim with the key recorded as
missing otherwise, and the literal text is emitted unchanged. -/
theorem render_text_decomposition :
    ∀ (vars : String → Option (List Char)) (text : List Char),
      ∃ ts : List Tok, srcOf ts = text ∧ ValidDecomp ts ∧
        render_text_with_vars text vars = (outOf vars ts, missOf vars ts) :=
  fun vars text => renderF_decomp vars text.length text le_rfl

theorem renderF_matched {vars : String → Option (List Char)} {fuel : ℕ}
    {cs m : List Char} {key : String} {rest : List Char}
    (hm : matchVar cs = some (m, key, rest)) (hf : cs.length ≤ fuel) :
    renderF vars fuel cs =
      match vars key with
      | some v => (v ++ (renderF vars rest.length rest).1, (renderF vars rest.length rest).2)
      | none =>
        (m ++ (renderF vars rest.length rest).1, insert key (renderF vars rest.length rest).2) := by
  have hlen := matchVar_length hm
  cases cs with
  | nil => exact absurd hm (by simp [matchVar])
  | cons c cs' =>
    obtain ⟨f, rfl⟩ : ∃ f, fuel = f + 1 := by
      cases fuel with
      | zero => simp at hf
      | succ n => exact ⟨n, rfl⟩
    simp only [List.length_cons] at hf hlen
    simp only [renderF, hm]
    rw [renderF_fuel_eq vars f rest.length rest (by omega) le_rfl]

/-- C9: a substituted value is emitted verbatim: when the input starts
with a placeholder (here with no inner whitespace) whose key is mapped,
the output starts with the mapped value exactly as stored — any
placeholder-shaped text inside it included — and scanning resumes after
the placeholder, so the value's content is neither substituted nor
recorded as missing in the same call. -/
theorem render_value_verbatim :
    ∀ (vars : String → Option (List Char)) (k v rest : List Char),
      goodKey k = true → vars (String.mk k) = some v →
      render_text_with_vars (placeholderText [] k [] ++ rest) vars =
        (v ++ (render_text_with_vars rest vars).1, (render_text_with_vars rest vars).2) := by
  intro vars k v rest hk hv
  have hm := @matchVar_of_placeholder [] k [] rest (by simp) hk (by simp)
  unfold render_text_with_vars
  rw [renderF_matched hm le_rfl, hv]

/-- A variable mapping whose values themselves contain placeholder
text: the key a maps to the placeholder for b, and b maps to x. -/
def varsSelfRef : String → Option (List Char) :=
  fun s => if s = "a" then some ('{' :: '{' :: 'b' :: '}' :: '}' :: [])
    else if s = "b" then some ['x'] else none

/-- C9 witness: rendering the placeholder for a emits the stored value
(the placeholder text for b) verbatim with nothing recorded missing. -/
theorem render_value_verbatim_witness :
    render_text_with_vars (placeholderText [] ['a'] [] ++ []) varsSelfRef =
      ('{' :: '{' :: 'b' :: '}' :: '}' :: [] ++ (render_text_with_vars [] varsSelfRef).1,
        (render_text_with_vars [] varsSelfRef).2) :=
  render_value_verbatim varsSelfRef ['a'] ('{' :: '{' :: 'b' :: '}' :: '}' :: []) []
    (by decide) rfl

/-- C4 counterexample: with the mapping varsSelfRef the first render of
the placeholder for a reports no missing keys, yet re-rendering its
output (the placeholder text for b, injected by the substitution) does
not reproduce it: the second pass substitutes b, so rendering is not
idempotent even though the variable set covered all placeholders of the
original text. -/
theorem render_idem_counterexample :
    (render_text_with_vars ('{' :: '{' :: 'a' :: '}' :: '}' :: []) varsSelfRef).2 = ∅ ∧
      render_text_with_vars
          (render_text_with_vars ('{' :: '{' :: 'a' :: '}' :: '}' :: []) varsSelfRef).1
          varsSelfRef ≠
        ((render_text_with_vars ('{' :: '{' :: 'a' :: '}' :: '}' :: []) varsSelfRef).1, ∅) := by
  constructor
  · decide
  · decide

/-- No placeholder matches anywhere in the text. -/
def NoPlaceholder (cs : List Char) : Prop := ∀ n : ℕ, ¬ StartsPlaceholder (cs.drop n)

theorem startsPlaceholder_length {cs : List Char} (h : StartsPlaceholder cs) :
    5 ≤ cs.length := by
  obtain ⟨w1, k, w2, rest, -, hk, -, rfl⟩ := h
  have hkl : 1 ≤ k.length := by
    cases k with
    | nil => exact absurd hk (by simp [goodKey])
    | cons a k' => simp
  simp [placeholderText, List.length_append]
  omega

theorem render_no_placeholder_id (vars : String → Option (List Char)) :
    ∀ (fuel : ℕ) (cs : List Char), cs.length ≤ fuel → NoPlaceholder cs →
      renderF vars fuel cs = (cs, ∅) := by
  intro fuel
  induction fuel with
  | zero =>
    intro cs h _
    obtain rfl : cs = [] := List.length_eq_zero.mp (Nat.le_zero.mp h)
    rfl
  | succ f ih =>
    intro cs h hnp
    cases cs with
    | nil => rfl
    | cons c cs' =>
      simp only [List.length_cons] at h
      cases hm : matchVar (c :: cs') with
      | some triple =>
        obtain ⟨m, key, rest⟩ := triple
        exact absurd (startsPlaceholder_of_matchVar_some hm) (by simpa using hnp 0)
      | none =>
        have hnp' : NoPlaceholder cs' := fun n => by simpa using hnp (n + 1)
        simp only [renderF, hm]
        rw [ih cs' (by omega) hnp']

/-- C4 (amended): re-rendering is the identity with an empty missing
set when the first render reports no missing keys and its output
contains no placeholder occurrence at all; the second condition is the
amendment — substituted values may splice new placeholder text into the
output, which a second render does process (see the counterexample). -/
theorem render_idem_amended :
    ∀ (vars : String → Option (List Char)) (text : List Char),
      (render_text_with_vars text vars).2 = ∅ →
      NoPlaceholder (render_text_with_vars text vars).1 →
      render_text_with_vars (render_text_with_vars text vars).1 vars =
        ((render_text_with_vars text vars).1, ∅) := by
  intro vars text _ h2
  exact render_no_placeholder_id vars _ _ le_rfl h2

/-- A mapping for the idempotence witness: a maps to the plain text x. -/
def varsPlain : String → Option (List Char) :=
  fun s => if s = "a" then some ['x'] else none

/-- C4 witness: rendering the placeholder for a against varsPlain
yields x with no missing keys, and re-rendering that output is the
identity with an empty missing set. -/
theorem render_idem_amended_witness :
    render_text_with_vars
        (render_text_with_vars ('{' :: '{' :: 'a' :: '}' :: '}' :: []) varsPlain).1 varsPlain =
      ((render_text_with_vars ('{' :: '{' :: 'a' :: '}' :: '}' :: []) varsPlain).1, ∅) := by
  have hout : (render_text_with_vars ('{' :: '{' :: 'a' :: '}' :: '}' :: []) varsPlain).1
      = ['x'] := by decide
  refine render_idem_amended varsPlain ('{' :: '{' :: 'a' :: '}' :: '}' :: []) (by decide) ?_
  rw [hout]
  intro n hsp
  have h5 := startsPlaceholder_length hsp
  have hd : (List.drop n ['x']).length ≤ 1 := by
    rw [List.length_drop]
    simp
  omega

/-! ## Repeat scheduler

Embeds the execution phase of `command_run` (`cmds/run.py`, lines
80–109).  External effects are abstracted into parameters: `codes i` is
the exit code of run `i`, `clockAfter i` the monotonic clock reading
taken after run `i` when the loop computes the remaining budget, and
`t0` the reading when the deadline `t0 + repeat_for` was computed.  The
result is the triple (returned exit code, runs executed, sleeps
performed); `none` means the step bound (`fuel`) was exhausted — every
claim proved below concerns executions that terminate within the bound. -/

structure RepeatCfg where
  repeatForS : ℚ
  repeatEveryS : ℚ
  maxRuns : Option ℕ
  continueOnError : Bool

/-- The source's `args.max_runs is not None and run_index >= args.max_runs`. -/
def maxRunsReached (maxRuns : Option ℕ) (runIndex : ℕ) : Bool :=
  match maxRuns with
  | some n => runIndex ≥ n
  | none => false

/-- The `while True` loop of `command_run`, at run index `i` with
`last_nonzero = lastNZ`: run, return the code at once on failure unless
continuing, then the max-runs stop, then the remaining-time stop, else
sleep and loop. -/
def schedAux (cfg : RepeatCfg) (codes : ℕ → Int) (clockAfter : ℕ → ℚ) (endTime : ℚ) :
    ℕ → Int → ℕ → Option (Int × ℕ × ℕ)
  | _, _, 0 => none
  | i, lastNZ, Nat.succ fuel =>
    if codes i ≠ 0 ∧ cfg.continueOnError = false then some (codes i, 1, 0)
    else if maxRunsReached cfg.maxRuns (i + 1) then
      some (if codes i ≠ 0 then codes i else lastNZ, 1, 0)
    else if endTime - clockAfter i ≤ 0 ∨ cfg.repeatEveryS > endTime - clockAfter i then
      some (if codes i ≠ 0 then codes i else lastNZ, 1, 0)
    else
      match schedAux cfg codes clockAfter endTime (i + 1)
          (if codes i ≠ 0 then codes i else lastNZ) fuel with
      | none => none
      | some (c, r, s) => some (c, r + 1, s + 1)

/-- The scheduling tail of `command_run`: without a repeat budget a
single run's exit code is returned; with one, the loop starts at run
index 0 with deadline `t0 + repeat_for` and `last_nonzero = 0`. -/
def command_run_schedule (repeatForS : Option ℚ) (repeatEveryS : ℚ) (maxRuns : Option ℕ)
    (continueOnError : Bool) (codes : ℕ → Int) (clockAfter : ℕ → ℚ) (t0 : ℚ) (fuel : ℕ) :
    Option (Int × ℕ × ℕ) :=
  match repeatForS with
  | none => some (codes 0, 1, 0)
  | some T =>
    schedAux ⟨T, repeatEveryS, maxRuns, continueOnError⟩ codes clockAfter (t0 + T) 0 0 fuel

/-- The last nonzero exit code among runs `0 .. r-1`, or 0 if none. -/
def lastNZPrefix (codes : ℕ → Int) : ℕ → Int
  | 0 => 0
  | Nat.succ r => if codes r ≠ 0 then codes r else lastNZPrefix codes r

/-- C6: with a repeat budget and continueOnError false, a run that
exits nonzero makes the scheduler return that code at once — one run
from that state, no sleep, nothing further — so a nonzero first run
means exactly one run executes and its code is returned. -/
theorem sched_stops_on_error :
    (∀ (cfg : RepeatCfg) (codes : ℕ → Int) (clockAfter : ℕ → ℚ) (endTime : ℚ)
        (i : ℕ) (lastNZ : Int) (fuel : ℕ),
      cfg.continueOnError = false → codes i ≠ 0 → 0 < fuel →
      schedAux cfg codes clockAfter endTime i lastNZ fuel = some (codes i, 1, 0)) ∧
    (∀ (T repeatEveryS : ℚ) (maxRuns : Option ℕ) (codes : ℕ → Int)
        (clockAfter : ℕ → ℚ) (t0 : ℚ) (fuel : ℕ),
      codes 0 ≠ 0 → 0 < fuel →
      command_run_schedule (some T) repeatEveryS maxRuns false codes clockAfter t0 fuel =
        some (codes 0, 1, 0)) := by
  have main : ∀ (cfg : RepeatCfg) (codes : ℕ → Int) (clockAfter : ℕ → ℚ) (endTime : ℚ)
      (i : ℕ) (lastNZ : Int) (fuel : ℕ),
      cfg.continueOnError = false → codes i ≠ 0 → 0 < fuel →
      schedAux cfg codes clockAfter endTime i lastNZ fuel = some (codes i, 1, 0) := by
    intro cfg codes clockAfter endTime i lastNZ fuel hcoe hnz hf
    obtain ⟨f, rfl⟩ : ∃ f, fuel = f + 1 := ⟨fuel - 1, by omega⟩
    simp only [schedAux]
    rw [if_pos ⟨hnz, hcoe⟩]
  refine ⟨main, fun T repeatEveryS maxRuns codes clockAfter t0 fuel h0 hf => ?_⟩
  unfold command_run_schedule
  exact main ⟨T, repeatEveryS, maxRuns, false⟩ codes clockAfter (t0 + T) 0 0 fuel rfl h0 hf

/-- C6 witness: a first run exiting 7 under continueOnError false gives
exactly one run, no sleep, return code 7, within a generous budget. -/
theorem sched_stops_on_error_witness :
    command_run_schedule (some 5) 1 none false (fun _ => 7) (fun _ => 0) 0 3 =
      some (7, 1, 0) :=
  sched_stops_on_error.2 5 1 none (fun _ => 7) (fun _ => 0) 0 3 (by decide) (by decide)

theorem schedAux_maxRuns (cfg : RepeatCfg) (codes : ℕ → Int) (clockAfter : ℕ → ℚ)
    (endTime : ℚ) (n : ℕ) (hm : cfg.maxRuns = some n) :
    ∀ (fuel i : ℕ) (lastNZ : Int), i < n → n ≤ i + fuel →
      ∃ c r s, schedAux cfg codes clockAfter endTime i lastNZ fuel = some (c, r, s) ∧
        i + r ≤ n ∧ (lastNZ = lastNZPrefix codes i → c = lastNZPrefix codes (i + r)) := by
  intro fuel
  induction fuel with
  | zero => intro i lastNZ hi hn; omega
  | succ f ih =>
    intro i lastNZ hi hn
    simp only [schedAux]
    by_cases hA : codes i ≠ 0 ∧ cfg.continueOnError = false
    · rw [if_pos hA]
      refine ⟨codes i, 1, 0, rfl, by omega, fun _ => ?_⟩
      show codes i = lastNZPrefix codes (i + 1)
      simp [lastNZPrefix, hA.1]
    · rw [if_neg hA]
      by_cases hB : maxRunsReached cfg.maxRuns (i + 1) = true
      · rw [if_pos hB]
        refine ⟨_, 1, 0, rfl, by omega, fun hl => ?_⟩
        by_cases hz : codes i ≠ 0
        · simp [lastNZPrefix, hz, hl]
        · simp [lastNZPrefix, hz, hl]
      · rw [if_neg hB]
        by_cases hC : endTime - clockAfter i ≤ 0 ∨ cfg.repeatEveryS > endTime - clockAfter i
        · rw [if_pos hC]
          refine ⟨_, 1, 0, rfl, by omega, fun hl => ?_⟩
          by_cases hz : codes i ≠ 0
          · simp [lastNZPrefix, hz, hl]
          · simp [lastNZPrefix, hz, hl]
        · rw [if_neg hC]
          have hi1 : i + 1 < n := by
            rw [hm] at hB
            simp only [maxRunsReached, ge_iff_le, decide_eq_true_eq] at hB
            omega
          obtain ⟨c, r, s, hrec, hle, hc⟩ :=
            ih (i + 1) (if codes i ≠ 0 then codes i else lastNZ) hi1 (by omega)
          refine ⟨c, r + 1, s + 1, ?_, by omega, fun hl => ?_⟩
          · rw [hrec]
          · have : (if codes i ≠ 0 then codes i else lastNZ) = lastNZPrefix codes (i + 1) := by
              by_cases hz : codes i ≠ 0
              · simp [lastNZPrefix, hz]
              · simp [lastNZPrefix, hz, hl]
            have := hc this
            rw [this]
            congr 1
            omega

/-- C7: with a repeat budget and maxRuns = n > 0 the scheduler performs
at most n runs and returns the last nonzero exit code among the runs it
executed (0 if none); with maxRuns = 1 it performs exactly one run and
no sleep, regardless of the clock, the cadence and the time budget —
the max-runs stop is decided before the remaining-time stop. -/
theorem sched_max_runs :
    (∀ (T repeatEveryS : ℚ) (n : ℕ) (continueOnError : Bool) (codes : ℕ → Int)
        (clockAfter : ℕ → ℚ) (t0 : ℚ) (fuel : ℕ),
      0 < n → n ≤ fuel →
      ∃ c r s, command_run_schedule (some T) repeatEveryS (some n) continueOnError codes
          clockAfter t0 fuel = some (c, r, s) ∧ r ≤ n ∧ c = lastNZPrefix codes r) ∧
    (∀ (T repeatEveryS : ℚ) (continueOnError : Bool) (codes : ℕ → Int)
        (clockAfter : ℕ → ℚ) (t0 : ℚ) (fuel : ℕ), 0 < fuel →
      ∃ c, command_run_schedule (some T) repeatEveryS (some 1) continueOnError codes
          clockAfter t0 fuel = some (c, 1, 0)) := by
  constructor
  · intro T repeatEveryS n continueOnError codes clockAfter t0 fuel hn hfuel
    obtain ⟨c, r, s, hrun, hle, hc⟩ :=
      schedAux_maxRuns ⟨T, repeatEveryS, some n, continueOnError⟩ codes clockAfter (t0 + T)
        n rfl fuel 0 0 hn (by omega)
    exact ⟨c, r, s, hrun, by omega, by simpa [lastNZPrefix] using hc rfl⟩
  · intro T repeatEveryS continueOnError codes clockAfter t0 fuel hf
    obtain ⟨f, rfl⟩ : ∃ f, fuel = f + 1 := ⟨fuel - 1, by omega⟩
    unfold command_run_schedule
    simp only [schedAux]
    by_cases hA : codes 0 ≠ 0 ∧ continueOnError = false
    · rw [if_pos hA]
      exact ⟨codes 0, rfl⟩
    · rw [if_neg hA, if_pos (by decide : maxRunsReached (some 1) (0 + 1) = true)]
      exact ⟨_, rfl⟩

/-- C7 witness: two clean runs under maxRuns 2 with an always-zero
runner terminate with at most two runs and exit code 0. -/
theorem sched_max_runs_witness :
    ∃ c r s, command_run_schedule (some 5) 1 (some 2) true (fun _ => 0) (fun _ => 0) 0 2 =
        some (c, r, s) ∧ r ≤ 2 ∧ c = lastNZPrefix (fun _ => 0) r :=
  sched_max_runs.1 5 1 2 true (fun _ => 0) (fun _ => 0) 0 2 (by decide) (by decide)

/-! ## Template path resolution

Embeds `split_template_name`, `find_template_files_by_stem` and
`resolve_existing_template_file` (`template_paths.py`, lines 14–60).
The filesystem under the templates directory is abstracted as a
predicate `fs` on file names (root and directory prefix folded in);
`pathlib`'s `name`/`suffix`/`stem` are modelled for plain file names —
the `name` model is used only inside the source's equality check
`Path(name).name != name`, where it gives the same verdict as pathlib.
The candidate list is built over the known extensions in dictionary
order `.json`, `.yaml`, `.yml`, which is already the by-suffix order
the source sorts into. -/

inductive ResolveError where
  | emptyName
  | pathSeparator
  | notFound
  | ambiguousName (choices : List (List Char))
deriving DecidableEq, Repr

/-- The keys of `TEMPLATE_EXT_TO_FORMAT`, in insertion order. -/
def TEMPLATE_EXTS : List (List Char) := [".json".toList, ".yaml".toList, ".yml".toList]

/-- `pathlib.PurePath(name).name`: the component after the last slash,
with a bare single-dot component collapsing to the empty name. -/
def pyPathName (n : List Char) : List Char :=
  if (n.reverse.takeWhile (fun c => decide (c ≠ '/'))).reverse = ['.'] then []
  else (n.reverse.takeWhile (fun c => decide (c ≠ '/'))).reverse

/-- `pathlib.PurePath(name).stem` and `.suffix` as a pair: the name
splits at its last dot when that dot is neither the first nor the last
character; otherwise there is no suffix. -/
def pySuffixStem (name : List Char) : List Char × List Char :=
  match name.reverse.dropWhile (fun c => decide (c ≠ '.')) with
  | '.' :: restRev =>
    if restRev = [] then (name, [])
    else if name.reverse.takeWhile (fun c => decide (c ≠ '.')) = [] then (name, [])
    else (restRev.reverse, '.' :: (name.reverse.takeWhile (fun c => decide (c ≠ '.'))).reverse)
  | _ => (name, [])

/-- `split_template_name(name)` (`template_paths.py` 21–29): validate,
then split off a known extension (lowercased) when present. -/
def split_template_name (name : List Char) :
    Except ResolveError (List Char × Option (List Char)) :=
  if pyStrip name = [] then .error .emptyName
  else if pyPathName name ≠ name then .error .pathSeparator
  else if ((pySuffixStem name).2.map Char.toLower) ∈ TEMPLATE_EXTS then
    if (pySuffixStem name).1 = [] then .error .emptyName
    else .ok ((pySuffixStem name).1, some ((pySuffixStem name).2.map Char.toLower))
  else .ok (name, none)

/-- `find_template_files_by_stem(root, stem)` (`template_paths.py`
38–44): the existing candidate files `stem + ext`, by extension. -/
def find_template_files_by_stem (fs : List Char → Bool) (stem : List Char) :
    List (List Char) :=
  (TEMPLATE_EXTS.filter (fun ext => fs (stem ++ ext))).map (fun ext => stem ++ ext)

/-- `resolve_existing_template_file(root, name)` (`template_paths.py`
47–60): explicit extension → that exact path or not-found; otherwise
look up by stem — not-found on zero matches, ambiguous (listing the
candidates) on several, the unique match otherwise. -/
def resolve_existing_template_file (fs : List Char → Bool) (name : List Char) :
    Except ResolveError (List Char) :=
  match split_template_name name with
  | .error e => .error e
  | .ok (stem, some ext) =>
    if fs (stem ++ ext) then .ok (stem ++ ext) else .error .notFound
  | .ok (stem, none) =>
    match find_template_files_by_stem fs stem with
    | [] => .error .notFound
    | [p] => .ok p
    | ps => .error (.ambiguousName ps)

theorem resolve_stem_case {fs : List Char → Bool} {name stem : List Char}
    (hsplit : split_template_name name = .ok (stem, none)) :
    resolve_existing_template_file fs name =
      match find_template_files_by_stem fs stem with
      | [] => .error .notFound
      | [p] => .ok p
      | ps => .error (.ambiguousName ps) := by
  unfold resolve_existing_template_file
  rw [hsplit]

theorem resolve_ext_case {fs : List Char → Bool} {name stem ext : List Char}
    (hsplit : split_template_name name = .ok (stem, some ext)) :
    resolve_existing_template_file fs name =
      if fs (stem ++ ext) then .ok (stem ++ ext) else .error .notFound := by
  unfold resolve_existing_template_file
  rw [hsplit]

/-- C8: for a validated name without explicit extension, resolution
fails not-found when no known extension yields an existing file, fails
ambiguous — listing the candidate file names — when more than one does,
and returns the unique match otherwise; with an explicit extension it
returns exactly that path when it exists and fails not-found when
it does not. -/
theorem resolve_existing_spec :
    ∀ (fs : List Char → Bool) (name stem : List Char),
      (split_template_name name = .ok (stem, none) →
        ((∀ ext ∈ TEMPLATE_EXTS, fs (stem ++ ext) = false) →
            resolve_existing_template_file fs name = .error .notFound) ∧
        (1 < (find_template_files_by_stem fs stem).length →
            resolve_existing_template_file fs name =
              .error (.ambiguousName (find_template_files_by_stem fs stem))) ∧
        (∀ ext ∈ TEMPLATE_EXTS, fs (stem ++ ext) = true →
            (∀ e2 ∈ TEMPLATE_EXTS, e2 ≠ ext → fs (stem ++ e2) = false) →
            resolve_existing_template_file fs name = .ok (stem ++ ext))) ∧
      (∀ ext, split_template_name name = .ok (stem, some ext) →
        (fs (stem ++ ext) = true →
            resolve_existing_template_file fs name = .ok (stem ++ ext)) ∧
        (fs (stem ++ ext) = false →
            resolve_existing_template_file fs name = .error .notFound)) := by
  intro fs name stem
  constructor
  · intro hsplit
    refine ⟨?_, ?_, ?_⟩
    · intro hall
      have h1 : fs (stem ++ ['.', 'j', 's', 'o', 'n']) = false :=
        hall (".json".toList) (by simp [TEMPLATE_EXTS])
      have h2 : fs (stem ++ ['.', 'y', 'a', 'm', 'l']) = false :=
        hall (".yaml".toList) (by simp [TEMPLATE_EXTS])
      have h3 : fs (stem ++ ['.', 'y', 'm', 'l']) = false :=
        hall (".yml".toList) (by simp [TEMPLATE_EXTS])
      rw [resolve_stem_case hsplit]
      simp [find_template_files_by_stem, TEMPLATE_EXTS, h1, h2, h3]
    · intro hlen
      rw [resolve_stem_case hsplit]
      cases h1 : fs (stem ++ ".json".toList) <;>
        cases h2 : fs (stem ++ ".yaml".toList) <;>
          cases h3 : fs (stem ++ ".yml".toList) <;>
        simp_all [find_template_files_by_stem, TEMPLATE_EXTS, h1, h2, h3]
    · intro ext hmem htrue hothers
      rw [resolve_stem_case hsplit]
      fin_cases hmem
      · have h1 : fs (stem ++ ['.', 'j', 's', 'o', 'n']) = true := htrue
        have h2 : fs (stem ++ ['.', 'y', 'a', 'm', 'l']) = false :=
          hothers (".yaml".toList) (by simp [TEMPLATE_EXTS]) (by decide)
        have h3 : fs (stem ++ ['.', 'y', 'm', 'l']) = false :=
          hothers (".yml".toList) (by simp [TEMPLATE_EXTS]) (by decide)
        simp [find_template_files_by_stem, TEMPLATE_EXTS, h1, h2, h3]
      · have h1 : fs (stem ++ ['.', 'j', 's', 'o', 'n']) = false :=
          hothers (".json".toList) (by simp [TEMPLATE_EXTS]) (by decide)
        have h2 : fs (stem ++ ['.', 'y', 'a', 'm', 'l']) = true := htrue
        have h3 : fs (stem ++ ['.', 'y', 'm', 'l']) = false :=
          hothers (".yml".toList) (by simp [TEMPLATE_EXTS]) (by decide)
        simp [find_template_files_by_stem, TEMPLATE_EXTS, h1, h2, h3]
      · have h1 : fs (stem ++ ['.', 'j', 's', 'o', 'n']) = false :=
          hothers (".json".toList) (by simp [TEMPLATE_EXTS]) (by decide)
        have h2 : fs (stem ++ ['.', 'y', 'a', 'm', 'l']) = false :=
          hothers (".yaml".toList) (by simp [TEMPLATE_EXTS]) (by decide)
        have h3 : fs (stem ++ ['.', 'y', 'm', 'l']) = true := htrue
        simp [find_template_files_by_stem, TEMPLATE_EXTS, h1, h2, h3]
  · intro ext hsplit
    constructor
    · intro htrue
      rw [resolve_ext_case hsplit, if_pos htrue]
    · intro hfalse
      rw [resolve_ext_case hsplit, if_neg (by simp [hfalse])]

/-- A one-file store: only a.json exists. -/
def sampleFs : List Char → Bool := fun p => p = "a.json".toList

/-- C8 witness: resolving the stem a against a store holding only
a.json yields that unique path. -/
theorem resolve_existing_spec_witness :
    resolve_existing_template_file sampleFs ("a".toList) = .ok ("a.json".toList) := by
  have h := ((resolve_existing_spec sampleFs ("a".toList) ("a".toList)).1
    (by decide)).2.2 (".json".toList) (by decide) (by decide) (by decide)
  simpa using h
